import Mathlib

/-!
# Verification of the PageRank core of `pagerank.py`

Shallow embedding of the algorithmic core of the repository's single source
file `src/pagerank.py`: graph construction (`crawl`), the random-surfer
transition distribution (`transition_model`), the sampling estimator
(`sample_pagerank`) and the iterative fixed-point estimator
(`iterate_pagerank`).  Python floats are modelled as exact rationals (`ℚ`),
Python dicts as association lists keyed by node names, Python sets as
`Finset`.  Randomness in the sampling estimator is modelled by passing the
realised random walk (the list of visited pages) explicitly.  Fallible code
returns `Except Err`; the unbounded `while True` loop of `iterate_pagerank`
is embedded with explicit fuel, returning `none` only when the fuel is
exhausted before the convergence check passes.
-/

/-- Node identifiers (page file names). -/
abbrev Node := String

/-- The corpus built by `crawl`: Python dict mapping a page to the set of
pages it links to, modelled as an association list. -/
abbrev Corpus := List (Node × Finset Node)

/-- Error kinds.  `zeroDivisionError` and `keyError` are the Python runtime
errors the code can actually raise; `invalidInput` and `convergenceFailure`
are the failure results named by the design documentation. -/
inductive Err where
  | zeroDivisionError
  | keyError
  | invalidInput
  | convergenceFailure
deriving DecidableEq, Repr

/-- The keys of a Python dict modelled as an association list. -/
def keys {β : Type} (m : List (Node × β)) : List Node := m.map Prod.fst

/-- Python dict access `m[k]` / membership test `k in m`:
`dget m k = some v` when the dict holds `v` at key `k`, `none` when
`k not in m`. -/
def dget {β : Type} : List (Node × β) → Node → Option β
  | [], _ => none
  | kv :: rest, k => if kv.1 = k then some kv.2 else dget rest k

/-- Sum of the values of a rank / probability dict. -/
def sum_vals (m : List (Node × ℚ)) : ℚ := (m.map Prod.snd).sum

/-! ## `crawl` (pagerank.py lines 11-35)

The file-system walk and the regular-expression link extraction are the
out-of-scope I/O boundary; the embedding starts from their result, the
collection of `(filename, raw link list)` pairs.  The code then stores
`set(links) - {filename}` per page and afterwards keeps only links that are
themselves pages of the corpus. -/

/-- `crawl`, from the collection of `(filename, extracted links)` pairs:
`pages[filename] = set(links) - {filename}` followed by the filter
`link in pages`. -/
def crawl (input : List (Node × List Node)) : Corpus :=
  let pages : Corpus := input.map (fun pr => (pr.1, pr.2.toFinset.erase pr.1))
  pages.map (fun pr => (pr.1, pr.2.filter (fun l => l ∈ keys pages)))

/-! ## `transition_model` (pagerank.py lines 37-61) -/

/-- Line 47: `corpus[page] if page in corpus else corpus.keys()`. -/
def linked_pages (c : Corpus) (page : Node) : Finset Node :=
  match dget c page with
  | some s => s
  | none => (keys c).toFinset

/-- `transition_model(corpus, page, damping_factor)`.  Line 50 computes
`link_prob = damping / len(linked) if linked else 0`; line 53 divides by
`len(corpus)` and raises `ZeroDivisionError` on an empty corpus; the
increment loop of lines 58-59 raises `KeyError` when a linked page is not a
key of the dict built over `corpus`.  Since each key of the dict is distinct
and `linked` is a set, the two assignment loops give each page `p` the value
`random_prob + (link_prob if p ∈ linked else 0)`. -/
def transition_model (c : Corpus) (page : Node) (d : ℚ) :
    Except Err (List (Node × ℚ)) :=
  let linked := linked_pages c page
  let link_prob : ℚ := if linked = ∅ then 0 else d / (linked.card : ℚ)
  if c.length = 0 then .error .zeroDivisionError
  else if ∃ l ∈ linked, l ∉ keys c then .error .keyError
  else
    let random_prob : ℚ := (1 - d) / (c.length : ℚ)
    .ok ((keys c).map (fun p => (p, random_prob + if p ∈ linked then link_prob else 0)))

/-! ## `sample_pagerank` (pagerank.py lines 63-88)

The loop visits `n` pages: the uniformly random start page, then `n - 1`
pages drawn by `random.choices` from the transition distribution.  The
randomness is modelled by passing this realised walk `path` explicitly;
each visited page's counter is incremented by `1/n`. -/

/-- `page_rank[current_page] += 1 / n` (line 79): add `x` to the value at
key `k`. -/
def bump (m : List (Node × ℚ)) (k : Node) (x : ℚ) : List (Node × ℚ) :=
  m.map (fun kv => if kv.1 = k then (kv.1, kv.2 + x) else kv)

/-- The sampling loop of lines 77-86, folded over the realised walk. -/
def sample_walk (inc : ℚ) : List Node → List (Node × ℚ) → List (Node × ℚ)
  | [], m => m
  | p :: rest, m => sample_walk inc rest (bump m p inc)

/-- `sample_pagerank(corpus, damping_factor, n)` with the realised walk
`path` (length `n`) supplied for the random draws.  The damping factor only
influences which walk is drawn, never the returned counters, so it does not
appear. `page_rank = {page: 0 for page in corpus}` is the initial dict. -/
def sample_pagerank (c : Corpus) (n : ℕ) (path : List Node) :
    List (Node × ℚ) :=
  sample_walk (1 / (n : ℚ)) path ((keys c).map (fun p => (p, 0)))

/-! ## `iterate_pagerank` (pagerank.py lines 90-124) -/

/-- Value of a rank dict at a page (`page_rank[page]`; the default 0 is
never hit on the dicts the code builds, whose keys are the corpus keys). -/
def rank_at (r : List (Node × ℚ)) (p : Node) : ℚ := (dget r p).getD 0

/-- Lines 108-115: `total = (1-d)/N` plus, for every `(linking_page,
linked_pages)` item of the corpus with `page in linked_pages`,
`d * page_rank[linking_page] / len(linked_pages)`. -/
def new_rank (c : Corpus) (d : ℚ) (r : List (Node × ℚ)) (page : Node) : ℚ :=
  (1 - d) / (c.length : ℚ) +
    (c.map (fun ql =>
      if page ∈ ql.2 then d * rank_at r ql.1 / (ql.2.card : ℚ) else 0)).sum

/-- One synchronous update: `new_page_rank = {page: total for page in corpus}`. -/
def iter_step (c : Corpus) (d : ℚ) (r : List (Node × ℚ)) :
    List (Node × ℚ) :=
  (keys c).map (fun p => (p, new_rank c d r p))

/-- Line 118: `all(abs(new[page] - old[page]) < 0.001 for page in corpus)`. -/
def converged (c : Corpus) (nr r : List (Node × ℚ)) : Prop :=
  ∀ p ∈ keys c, |rank_at nr p - rank_at r p| < 1 / 1000

instance (c : Corpus) (nr r : List (Node × ℚ)) : Decidable (converged c nr r) :=
  List.decidableBAll _ (keys c)

/-- The `while True` loop of lines 103-122.  The code has no iteration cap;
the fuel only bounds the embedding (`none` = fuel ran out before the
convergence check passed).  On convergence the loop `break`s before
`page_rank = new_page_rank`, so the dict from before the final update is
returned. -/
def iter_loop (c : Corpus) (d : ℚ) :
    ℕ → List (Node × ℚ) → Option (List (Node × ℚ))
  | 0, _ => none
  | fuel + 1, r =>
    let nr := iter_step c d r
    if converged c nr r then some r
    else iter_loop c d fuel nr

/-- `iterate_pagerank(corpus, damping_factor)`:
`page_rank = {page: 1/N for page in corpus}`, then the loop. -/
def iterate_pagerank (c : Corpus) (d : ℚ) (fuel : ℕ) :
    Option (List (Node × ℚ)) :=
  iter_loop c d fuel ((keys c).map (fun p => (p, 1 / (c.length : ℚ))))

/-! ## Helper lemmas -/

lemma dget_mem {β : Type} {m : List (Node × β)} {k : Node} {b : β}
    (h : dget m k = some b) : (k, b) ∈ m := by
  induction m with
  | nil => simp [dget] at h
  | cons kv rest ih =>
    rw [dget] at h
    by_cases hk : kv.1 = k
    · rw [if_pos hk] at h
      injection h with h2
      subst hk
      subst h2
      simp
    · rw [if_neg hk] at h
      exact List.mem_cons_of_mem _ (ih h)

lemma keys_map_pair {β : Type} (l : List Node) (f : Node → β) :
    keys (l.map (fun p => (p, f p))) = l := by
  simp [keys, List.map_map, Function.comp_def]

lemma sum_vals_map_pair (l : List Node) (f : Node → ℚ) :
    sum_vals (l.map (fun p => (p, f p))) = (l.map f).sum := by
  simp [sum_vals, List.map_map, Function.comp_def]

lemma keys_bump (m : List (Node × ℚ)) (k : Node) (x : ℚ) :
    keys (bump m k x) = keys m := by
  simp only [keys, bump, List.map_map]
  refine List.map_congr_left ?_
  intro kv _
  by_cases hk : kv.1 = k <;> simp [hk, Function.comp]

lemma bump_not_mem {m : List (Node × ℚ)} {k : Node} (x : ℚ)
    (h : k ∉ keys m) : bump m k x = m := by
  induction m with
  | nil => rfl
  | cons kv rest ih =>
    simp only [keys, List.map_cons, List.mem_cons] at h
    push_neg at h
    rw [bump, List.map_cons, if_neg (fun he => h.1 he.symm)]
    have := ih (by simpa [keys] using h.2)
    simpa [bump] using this

lemma sum_vals_cons (kv : Node × ℚ) (m : List (Node × ℚ)) :
    sum_vals (kv :: m) = kv.2 + sum_vals m := by
  simp [sum_vals]

lemma sum_vals_bump {m : List (Node × ℚ)} {k : Node} (x : ℚ)
    (hnd : (keys m).Nodup) (hk : k ∈ keys m) :
    sum_vals (bump m k x) = sum_vals m + x := by
  induction m with
  | nil => simp [keys] at hk
  | cons kv rest ih =>
    simp only [keys, List.map_cons, List.nodup_cons] at hnd
    by_cases he : kv.1 = k
    · have hrest : k ∉ keys rest := he ▸ hnd.1
      rw [bump, List.map_cons, if_pos he]
      have : List.map (fun kv => if kv.1 = k then (kv.1, kv.2 + x) else kv) rest
          = bump rest k x := rfl
      rw [this, bump_not_mem x hrest, sum_vals_cons, sum_vals_cons]
      ring
    · have hkrest : k ∈ keys rest := by
        simp only [keys, List.map_cons, List.mem_cons] at hk
        rcases hk with hk | hk
        · exact absurd hk.symm he
        · exact hk
      rw [bump, List.map_cons, if_neg he]
      have : List.map (fun kv => if kv.1 = k then (kv.1, kv.2 + x) else kv) rest
          = bump rest k x := rfl
      rw [this, sum_vals_cons, sum_vals_cons, ih hnd.2 hkrest]
      ring

lemma keys_sample_walk (inc : ℚ) (path : List Node) (m : List (Node × ℚ)) :
    keys (sample_walk inc path m) = keys m := by
  induction path generalizing m with
  | nil => rfl
  | cons p rest ih => rw [sample_walk, ih, keys_bump]

lemma sum_vals_sample_walk (inc : ℚ) (path : List Node) (m : List (Node × ℚ))
    (hnd : (keys m).Nodup) (hmem : ∀ p ∈ path, p ∈ keys m) :
    sum_vals (sample_walk inc path m) = sum_vals m + inc * path.length := by
  induction path generalizing m with
  | nil => simp [sample_walk]
  | cons p rest ih =>
    rw [sample_walk, ih (bump m p inc) (by rw [keys_bump]; exact hnd)
        (by intro q hq; rw [keys_bump]; exact hmem q (List.mem_cons_of_mem _ hq)),
      sum_vals_bump inc hnd (hmem p (List.mem_cons_self _ _))]
    rw [List.length_cons]
    push_cast
    ring

lemma bump_nonneg {m : List (Node × ℚ)} {k : Node} {x : ℚ}
    (hm : ∀ kv ∈ m, 0 ≤ kv.2) (hx : 0 ≤ x) :
    ∀ kv ∈ bump m k x, 0 ≤ kv.2 := by
  intro kv hkv
  rw [bump, List.mem_map] at hkv
  obtain ⟨kv0, hkv0, heq⟩ := hkv
  by_cases hk : kv0.1 = k
  · rw [if_pos hk] at heq
    rw [← heq]
    exact add_nonneg (hm kv0 hkv0) hx
  · rw [if_neg hk] at heq
    rw [← heq]
    exact hm kv0 hkv0

lemma sample_walk_nonneg {inc : ℚ} (path : List Node)
    (m : List (Node × ℚ)) (hm : ∀ kv ∈ m, 0 ≤ kv.2) (hinc : 0 ≤ inc) :
    ∀ kv ∈ sample_walk inc path m, 0 ≤ kv.2 := by
  induction path generalizing m with
  | nil => exact hm
  | cons p rest ih =>
    rw [sample_walk]
    exact ih (bump m p inc) (bump_nonneg hm hinc)

lemma sum_vals_nonneg {m : List (Node × ℚ)} (hm : ∀ kv ∈ m, 0 ≤ kv.2) :
    0 ≤ sum_vals m := by
  induction m with
  | nil => simp [sum_vals]
  | cons kv rest ih =>
    rw [sum_vals_cons]
    exact add_nonneg (hm kv (List.mem_cons_self _ _))
      (ih (fun kv' h => hm kv' (List.mem_cons_of_mem _ h)))

lemma le_sum_vals {m : List (Node × ℚ)} (hm : ∀ kv ∈ m, 0 ≤ kv.2) :
    ∀ kv ∈ m, kv.2 ≤ sum_vals m := by
  induction m with
  | nil => intro kv h; simp at h
  | cons kv0 rest ih =>
    intro kv hkv
    rw [sum_vals_cons]
    rcases List.mem_cons.mp hkv with h | h
    · subst h
      exact le_add_of_nonneg_right
        (sum_vals_nonneg (fun kv' h => hm kv' (List.mem_cons_of_mem _ h)))
    · calc kv.2 ≤ sum_vals rest :=
            ih (fun kv' h' => hm kv' (List.mem_cons_of_mem _ h')) kv h
        _ ≤ kv0.2 + sum_vals rest :=
            le_add_of_nonneg_left (hm kv0 (List.mem_cons_self _ _))

lemma iter_loop_converged {c : Corpus} {d : ℚ} :
    ∀ (fuel : ℕ) (r0 r : List (Node × ℚ)),
      iter_loop c d fuel r0 = some r → converged c (iter_step c d r) r := by
  intro fuel
  induction fuel with
  | zero => intro r0 r h; simp [iter_loop] at h
  | succ fuel ih =>
    intro r0 r h
    rw [iter_loop] at h
    by_cases hc : converged c (iter_step c d r0) r0
    · rw [if_pos hc] at h
      injection h with h'
      subst h'
      exact hc
    · rw [if_neg hc] at h
      exact ih _ _ h

/-! ## Claim theorems -/

/-- Claim C1 (amended): for a non-empty graph whose link sets only point at
graph nodes, any current node and any damping factor in `[0,1]`,
`transition_model` succeeds with a distribution over exactly the graph's
nodes whose values are all non-negative; the values sum to exactly 1
provided the current node is not stored with an empty link set (for a
stored sink node the sum is `1 - damping` instead, see the
counterexample). -/
theorem transition_model_mass (c : Corpus) (page : Node) (d : ℚ)
    (hc : c ≠ []) (hnd : (keys c).Nodup) (hd0 : 0 ≤ d) (hd1 : d ≤ 1)
    (hvalid : ∀ pr ∈ c, ∀ l ∈ pr.2, l ∈ keys c)
    (hsink : dget c page ≠ some ∅) :
    ∃ t, transition_model c page d = .ok t ∧ keys t = keys c ∧
      (∀ kv ∈ t, 0 ≤ kv.2) ∧ sum_vals t = 1 := by
  have hsub : ∀ l ∈ linked_pages c page, l ∈ keys c := by
    intro l hl
    cases hdg : dget c page with
    | some s =>
      have he : linked_pages c page = s := by simp only [linked_pages, hdg]
      rw [he] at hl
      exact hvalid (page, s) (dget_mem hdg) l hl
    | none =>
      have he : linked_pages c page = (keys c).toFinset := by
        simp only [linked_pages, hdg]
      rw [he] at hl
      exact List.mem_toFinset.mp hl
  have hkeysne : keys c ≠ [] := by
    intro h0
    exact hc (List.map_eq_nil_iff.mp h0)
  have hne : linked_pages c page ≠ ∅ := by
    cases hdg : dget c page with
    | some s =>
      have he : linked_pages c page = s := by simp only [linked_pages, hdg]
      rw [he]
      intro h
      exact hsink (by rw [hdg, h])
    | none =>
      have he : linked_pages c page = (keys c).toFinset := by
        simp only [linked_pages, hdg]
      rw [he]
      intro h
      rcases List.exists_mem_of_ne_nil _ hkeysne with ⟨x, hx⟩
      have : x ∈ (keys c).toFinset := List.mem_toFinset.mpr hx
      rw [h] at this
      simp at this
  have hlen : c.length ≠ 0 := by
    intro h
    exact hc (List.length_eq_zero.mp h)
  have hnot : ¬ ∃ l ∈ linked_pages c page, l ∉ keys c := by
    rintro ⟨l, hl, hnl⟩
    exact hnl (hsub l hl)
  have heq : transition_model c page d = .ok ((keys c).map (fun p =>
      (p, (1 - d) / (c.length : ℚ) +
        if p ∈ linked_pages c page then
          (if linked_pages c page = ∅ then 0
            else d / ((linked_pages c page).card : ℚ))
        else 0))) := by
    rw [transition_model]
    rw [if_neg hlen, if_neg hnot]
  refine ⟨_, heq, keys_map_pair _ _, ?_, ?_⟩
  · intro kv hkv
    rw [List.mem_map] at hkv
    obtain ⟨p, _, hp⟩ := hkv
    rw [← hp]
    have hrp : (0:ℚ) ≤ (1 - d) / (c.length : ℚ) :=
      div_nonneg (by linarith) (Nat.cast_nonneg _)
    refine add_nonneg hrp ?_
    repeat' split
    all_goals first
      | exact le_refl 0
      | exact div_nonneg hd0 (Nat.cast_nonneg _)
  · rw [sum_vals_map_pair, ← List.sum_toFinset _ hnd, Finset.sum_add_distrib,
      Finset.sum_const, Finset.sum_ite_mem,
      Finset.inter_eq_right.mpr (fun l hl => List.mem_toFinset.mpr (hsub l hl)),
      Finset.sum_const, List.toFinset_card_of_nodup hnd]
    rw [if_neg hne]
    have hcard : ((linked_pages c page).card : ℚ) ≠ 0 := by
      rw [Nat.cast_ne_zero, ← Nat.pos_iff_ne_zero, Finset.card_pos]
      exact Finset.nonempty_iff_ne_empty.mpr hne
    have hlenq : ((c.length : ℚ)) ≠ 0 := Nat.cast_ne_zero.mpr hlen
    have hklen : (keys c).length = c.length := List.length_map _ _
    rw [nsmul_eq_mul, nsmul_eq_mul, hklen, mul_div_cancel₀ _ hlenq,
      mul_div_cancel₀ _ hcard]
    ring

/-- Witness for C1's amended theorem on the two-page cycle graph. -/
theorem transition_model_mass_witness :
    ∃ t, transition_model [("a", ({"b"} : Finset Node)), ("b", ({"a"} : Finset Node))]
        "a" (17/20) = .ok t ∧
      keys t = keys [("a", ({"b"} : Finset Node)), ("b", ({"a"} : Finset Node))] ∧
      (∀ kv ∈ t, 0 ≤ kv.2) ∧ sum_vals t = 1 :=
  transition_model_mass [("a", {"b"}), ("b", {"a"})] "a" (17/20)
    (by decide) (by decide) (by norm_num) (by norm_num) (by decide) (by decide)

/-- Counterexample to C1 as stated: for the single-page graph whose page is
stored with an empty link set, `transition_model` returns the distribution
`{a: 3/20}` at damping `17/20`, whose total mass `3/20` is not within
`1e-9` of 1. -/
theorem transition_model_sink_cex :
    transition_model [("a", (∅ : Finset Node))] "a" (17/20) = .ok [("a", 3/20)] ∧
    sum_vals [("a", (3:ℚ)/20)] = 3/20 ∧
    ¬ (|sum_vals [("a", (3:ℚ)/20)] - 1| ≤ 1/1000000000) := by
  refine ⟨?_, ?_, ?_⟩
  · simp [transition_model, linked_pages, dget, keys]
    norm_num
  · simp [sum_vals]
  · rw [show sum_vals [("a", (3:ℚ)/20)] = 3/20 from by simp [sum_vals]]
    rw [show |(3:ℚ)/20 - 1| = 17/20 by rw [abs_sub_comm, abs_of_pos] <;> norm_num]
    norm_num

/-- Claim C2 (amended): the set of linked pages used for the damping term
is the set of all graph nodes only when the current node is absent from
the graph; a node stored in the graph keeps its stored link set even when
that set is empty, so a stored sink node is not redirected to every
page. -/
theorem linked_pages_cases (c : Corpus) (page : Node) :
    (dget c page = none → linked_pages c page = (keys c).toFinset) ∧
    (∀ s, dget c page = some s → linked_pages c page = s) := by
  constructor
  · intro h
    simp only [linked_pages, h]
  · intro s h
    simp only [linked_pages, h]

/-- Witness for C2's amended theorem: a node absent from the graph falls
back to the full node set. -/
theorem linked_pages_cases_witness :
    linked_pages [("b", ({"b"} : Finset Node))] "a" =
      (keys [("b", ({"b"} : Finset Node))]).toFinset :=
  (linked_pages_cases [("b", ({"b"} : Finset Node))] "a").1 (by decide)

/-- Counterexample to C2 as stated: page `a` is present in the graph with
an empty outbound set, yet its linked-page set stays empty instead of
becoming the set of all nodes. -/
theorem linked_pages_sink_cex :
    linked_pages [("a", (∅ : Finset Node)), ("b", ({"a"} : Finset Node))] "a" = ∅ ∧
    linked_pages [("a", (∅ : Finset Node)), ("b", ({"a"} : Finset Node))] "a" ≠
      (keys [("a", (∅ : Finset Node)), ("b", ({"a"} : Finset Node))]).toFinset := by
  decide

/-- Claim C3 (code evaluation): on the single-sink graph `{a: {}}` with
damping `0.85`, `iterate_pagerank` converges and returns total mass
`3/20`, not 1 ± 1e-3 — probability mass leaks through the sink, contrary
to the function's own docstring. -/
theorem iterate_pagerank_sink_leak :
    iterate_pagerank [("a", (∅ : Finset Node))] (17/20) 5 = some [("a", 3/20)] ∧
    sum_vals [("a", (3:ℚ)/20)] = 3/20 ∧
    ¬ (|sum_vals [("a", (3:ℚ)/20)] - 1| < 1/1000) := by
  refine ⟨?_, ?_, ?_⟩
  · simp [iterate_pagerank, iter_loop, iter_step, new_rank, converged, rank_at,
      dget, keys]
    rw [abs_of_nonneg (by norm_num : (0:ℚ) ≤ 17/20)]
    norm_num
  · simp [sum_vals]
  · rw [show sum_vals [("a", (3:ℚ)/20)] = 3/20 from by simp [sum_vals]]
    rw [show |(3:ℚ)/20 - 1| = 17/20 by rw [abs_sub_comm, abs_of_pos] <;> norm_num]
    norm_num

/-- Claim C4 (code evaluation): the loop of `iterate_pagerank` has no
iteration cap and no `ConvergenceFailure` outcome: on the single-sink
graph it stops through the convergence test after two updates, and the
result is unchanged for any larger fuel bound — the embedding's fuel, the
only bound present, is never the reason the function stops on convergent
inputs. -/
theorem iterate_pagerank_no_cap :
    iterate_pagerank [("a", (∅ : Finset Node))] (17/20) 2 = some [("a", 3/20)] ∧
    iterate_pagerank [("a", (∅ : Finset Node))] (17/20) 10000 =
      iterate_pagerank [("a", (∅ : Finset Node))] (17/20) 2 := by
  constructor
  · simp [iterate_pagerank, iter_loop, iter_step, new_rank, converged, rank_at,
      dget, keys]
    rw [abs_of_nonneg (by norm_num : (0:ℚ) ≤ 17/20)]
    norm_num
  · simp [iterate_pagerank, iter_loop, iter_step, new_rank, converged, rank_at,
      dget, keys]

/-- Claim C5 (code evaluation): on the one-node graph with no outbound
links, the sampling estimator returns rank 1 for the node (any realised
walk stays on it), but the iterative estimator returns `3/20`, not 1, at
damping `0.85`. -/
theorem single_node_graph_estimators :
    sample_pagerank [("a", (∅ : Finset Node))] 5 ["a", "a", "a", "a", "a"] = [("a", 1)] ∧
    iterate_pagerank [("a", (∅ : Finset Node))] (17/20) 3 = some [("a", 3/20)] ∧
    (3:ℚ)/20 ≠ 1 := by
  refine ⟨?_, ?_, by norm_num⟩
  · simp [sample_pagerank, sample_walk, bump, keys]
    norm_num
  · simp [iterate_pagerank, iter_loop, iter_step, new_rank, converged, rank_at,
      dget, keys]
    rw [abs_of_nonneg (by norm_num : (0:ℚ) ≤ 17/20)]
    norm_num

/-- Claim C6: for a positive sample count `n` and any realised walk of `n`
visited pages drawn from the graph's nodes, the sampling estimator's
counters sum to exactly 1 (as `n` contributions of `1/n`) and every value
lies in `[0, 1]`. -/
theorem sample_pagerank_mass (c : Corpus) (n : ℕ) (path : List Node)
    (hn : 0 < n) (hlen : path.length = n) (hnd : (keys c).Nodup)
    (hmem : ∀ x ∈ path, x ∈ keys c) :
    sum_vals (sample_pagerank c n path) = 1 ∧
    ∀ kv ∈ sample_pagerank c n path, 0 ≤ kv.2 ∧ kv.2 ≤ 1 := by
  have hkeys0 : keys ((keys c).map (fun p => (p, (0:ℚ)))) = keys c :=
    keys_map_pair _ _
  have hsum0 : sum_vals ((keys c).map (fun p => (p, (0:ℚ)))) = 0 := by
    rw [sum_vals_map_pair]
    simp
  have hnonneg0 : ∀ kv ∈ (keys c).map (fun p => (p, (0:ℚ))), 0 ≤ kv.2 := by
    intro kv hkv
    rw [List.mem_map] at hkv
    obtain ⟨p, _, hp⟩ := hkv
    rw [← hp]
  have hinc : (0:ℚ) ≤ 1 / (n : ℚ) := by positivity
  have hsum : sum_vals (sample_pagerank c n path) = 1 := by
    rw [sample_pagerank, sum_vals_sample_walk _ _ _
        (by rw [hkeys0]; exact hnd)
        (by intro p hp; rw [hkeys0]; exact hmem p hp),
      hsum0, hlen]
    have hn0 : (n:ℚ) ≠ 0 := Nat.cast_ne_zero.mpr (Nat.pos_iff_ne_zero.mp hn)
    field_simp
  refine ⟨hsum, ?_⟩
  intro kv hkv
  rw [sample_pagerank] at hkv
  have h0 : 0 ≤ kv.2 := sample_walk_nonneg path _ hnonneg0 hinc kv hkv
  have hub : kv.2 ≤ sum_vals (sample_walk (1 / (n : ℚ)) path
      ((keys c).map (fun p => (p, (0:ℚ))))) :=
    le_sum_vals (sample_walk_nonneg path _ hnonneg0 hinc) kv hkv
  rw [show sample_walk (1 / (n : ℚ)) path ((keys c).map (fun p => (p, (0:ℚ))))
      = sample_pagerank c n path from rfl, hsum] at hub
  exact ⟨h0, hub⟩

/-- Witness for C6 on the graph `{a: {b}, b: {}}` with the realised
two-step walk `a, b`. -/
theorem sample_pagerank_mass_witness :
    sum_vals (sample_pagerank [("a", ({"b"} : Finset Node)), ("b", (∅ : Finset Node))]
      2 ["a", "b"]) = 1 :=
  (sample_pagerank_mass [("a", ({"b"} : Finset Node)), ("b", (∅ : Finset Node))]
    2 ["a", "b"] (by decide) (by decide) (by decide) (by decide)).1

/-- Claim C7 (amended): `transition_model` on an empty graph fails with the
uncaught division-by-zero error from the base term `(1 - damping) /
len(corpus)`, for every page and damping factor — not with an
`InvalidInput` failure result. -/
theorem transition_model_empty (page : Node) (d : ℚ) :
    transition_model [] page d = .error .zeroDivisionError := by
  simp [transition_model]

/-- Counterexample to C7 as stated: the failure on the empty graph is the
`ZeroDivisionError`, not an `InvalidInput` failure result. -/
theorem transition_model_empty_cex :
    transition_model ([] : Corpus) "a" (17/20) ≠ .error .invalidInput ∧
    transition_model ([] : Corpus) "a" (17/20) = .error .zeroDivisionError := by
  have h0 : transition_model ([] : Corpus) "a" (17/20) = .error .zeroDivisionError := by
    simp [transition_model]
  constructor
  · rw [h0]
    simp
  · exact h0

/-- Claim C8 (code evaluation): with sample count 0 (so the sampling loop
never runs), `sample_pagerank` silently returns the all-zero mapping —
total mass 0 — instead of failing with an `InvalidInput` error. -/
theorem sample_pagerank_zero_count :
    sample_pagerank [("a", (∅ : Finset Node))] 0 [] = [("a", 0)] ∧
    sum_vals (sample_pagerank [("a", (∅ : Finset Node))] 0 []) = 0 := by
  constructor
  · simp [sample_pagerank, sample_walk, keys]
  · simp [sample_pagerank, sample_walk, keys, sum_vals]

/-- Claim C9: for every input collection of `(node, raw link list)` pairs,
the graph built by `crawl` keeps exactly the input's nodes, every
outbound link of every node is itself a node of the graph, and no node
links to itself; a node whose outbound set ends up empty is kept without
error. -/
theorem crawl_invariant (input : List (Node × List Node)) :
    keys (crawl input) = keys input ∧
    ∀ pr ∈ crawl input, (∀ l ∈ pr.2, l ∈ keys (crawl input)) ∧ pr.1 ∉ pr.2 := by
  have hkeys : keys (crawl input) = keys input := by
    simp [crawl, keys, List.map_map, Function.comp_def]
  refine ⟨hkeys, ?_⟩
  intro pr hpr
  simp only [crawl, List.mem_map] at hpr
  obtain ⟨q, hq, hpr⟩ := hpr
  obtain ⟨p0, hp0, hq0⟩ := hq
  constructor
  · intro l hl
    rw [← hpr] at hl
    simp only [Finset.mem_filter] at hl
    rw [hkeys]
    have : l ∈ keys (input.map (fun pr => (pr.1, pr.2.toFinset.erase pr.1))) := hl.2
    rwa [keys, List.map_map, show (Prod.fst ∘ fun pr : Node × List Node =>
      (pr.1, pr.2.toFinset.erase pr.1)) = Prod.fst from rfl, ← keys] at this
  · intro hself
    rw [← hpr] at hself
    simp only [Finset.mem_filter] at hself
    have h1 : q.1 ∈ q.2 := hself.1
    rw [← hq0] at h1
    simp only [Finset.mem_erase] at h1
    exact h1.1 rfl

/-- Claim C10: whenever `iterate_pagerank` returns a mapping `r`, that `r`
is the rank vector from before the final synchronous update: applying one
more update step changes every node's rank by less than the tolerance
`0.001`, and the freshly computed post-update vector of the final
iteration is discarded rather than returned. -/
theorem iterate_pagerank_postcondition (c : Corpus) (d : ℚ) (fuel : ℕ)
    (r : List (Node × ℚ)) (h : iterate_pagerank c d fuel = some r) :
    ∀ p ∈ keys c, |rank_at (iter_step c d r) p - rank_at r p| < 1 / 1000 :=
  iter_loop_converged fuel _ r h

/-- Witness for C10 on the single-sink graph: the returned vector
`{a: 3/20}` moves by less than `0.001` (in fact not at all) under one more
update step. -/
theorem iterate_pagerank_postcondition_witness :
    |rank_at (iter_step [("a", (∅ : Finset Node))] (17/20) [("a", (3:ℚ)/20)]) "a" -
      rank_at [("a", (3:ℚ)/20)] "a"| < 1 / 1000 :=
  iterate_pagerank_postcondition [("a", (∅ : Finset Node))] (17/20) 2
    [("a", (3:ℚ)/20)]
    (by
      simp [iterate_pagerank, iter_loop, iter_step, new_rank, converged, rank_at,
        dget, keys]
      rw [abs_of_nonneg (by norm_num : (0:ℚ) ≤ 17/20)]
      norm_num)
    "a" (by simp [keys])
